import Mathlib

/-
  Verification development for the spectrum-sharing discrete-event simulators.

  The embedding follows the repository sources:
  - the heap-based priority queue and the cooperative provider loop of
    CBRS_WaitTime_Sim_v1.py (Full Active / Three Tier / Wait Time Simulations),
  - the provider coroutine and statistics recording of CBRS_WaitTime_Preemption_Sim.py,
  - the switchover engine of MM1_Two_Class_Switchover_Per_Class_Sim.py,
  - the exceptional-service interrupt handler of
    MM1_Two_Class_Exceptional_Service_Per_Class_Sim.py,
  - the trace-driven breakdown simulator 3_mg1_sbd_Model_A_traces.py
    (Active-Passive Sharing / Two Class),
  - the module-level configuration checks of the Active-Passive scripts.

  Machine floats are modelled by exact rationals.  The cooperative SimPy
  semantics (single logical thread, mutation only between yield points) is
  modelled by a small-step function on explicit states: compound actions that
  the Python code performs without an intervening yield are a single step.
-/

/- ===================== Priority queue (heapq on triples) ===================== -/

/-- A queued customer, the tuple (priority, entry, service) pushed on the heap
in CBRS_WaitTime_Sim_v1.py (PriorityQueue.push): priority is the class tag
(0 incumbent, 1 priority class, 2 general), entry the initial arrival time,
serv the remaining service length. -/
structure Cust where
  priority : ℕ
  entry : ℚ
  serv : ℚ
deriving DecidableEq, Repr

/-- Lexicographic comparison of heap keys, as Python orders the tuples
(priority, entry, service). -/
def custKeyLE (a b : Cust) : Bool :=
  decide (a.priority < b.priority) ||
    (decide (a.priority = b.priority) &&
      (decide (a.entry < b.entry) ||
        (decide (a.entry = b.entry) && decide (a.serv ≤ b.serv))))

/-- Ordered insertion into the queue.  The heap of the Python code always pops
a minimal tuple, so its observable behaviour is that of a list kept sorted by
the key order; push inserts the new customer before the first strictly greater
element (after all equal keys, so insertion is stable). -/
def push : List Cust → Cust → List Cust
  | [], c => [c]
  | x :: xs, c => if custKeyLE x c then x :: push xs c else c :: x :: xs

/-- Sortedness of the queue under the lexicographic key order. -/
def sortedQ : List Cust → Bool
  | [] => true
  | [_] => true
  | a :: b :: t => custKeyLE a b && sortedQ (b :: t)

/- ===================== Engine state (CBRS_WaitTime_Sim_v1.py) ===================== -/

/-- One arrival produced by a generator: the sampled arrival instant, the class
decided by the phi draw (or 0 for an incumbent), and the sampled service time.
A run is driven by the finite time-ordered list of such arrivals, abstracting
the random-variate stream. -/
structure Arrival where
  t : ℚ
  priority : ℕ
  serv : ℚ
deriving DecidableEq, Repr

/-- Pointwise update of a statistics array at one index. -/
def upd {ι α : Type} [DecidableEq ι] (f : ι → α) (i : ι) (v : α) : ι → α :=
  fun j => if j = i then v else f j

/-- State of one replicate of the SimEnv of CBRS_WaitTime_Sim_v1.py.
The fields busy and done are ghost instrumentation for verification only
(accumulated completed service-quantum time, number of completed jobs);
they influence no branch of the dynamics. -/
structure SimState where
  now : ℚ
  queue : List Cust
  serving : Option (Cust × ℚ)
  w : ℕ → ℚ
  n : ℕ → ℕ
  busy : ℚ
  done : ℕ

/-- A running replicate: the not-yet-dispatched arrivals together with the
engine state. -/
structure SimConfig where
  arrs : List Arrival
  st : SimState

/-- Statistics recording of the provider (CBRS_WaitTime_Sim_v1.py lines
186-188): on completion at time tC, if tC exceeds the warm-up cutoff, the flow
time tC - entry is added to the class total and the class count increments. -/
def record (tstart tC entry : ℚ) (priority : ℕ) (w : ℕ → ℚ) (n : ℕ → ℕ) :
    (ℕ → ℚ) × (ℕ → ℕ) :=
  if tstart < tC then
    (upd w priority (w priority + (tC - entry)), upd n priority (n priority + 1))
  else (w, n)

/-- The provider pops the head of the queue and begins serving it at the
current instant; with an empty queue the server stays idle awaiting the wakeup
signal (provider loop, lines 174-180). -/
def startServe (s : SimState) : SimState :=
  match s.queue with
  | [] => s
  | cust :: rest => { s with queue := rest, serving := some (cust, s.now) }

/-- Natural completion of the in-service customer (provider loop, lines
184-188, then the loop head): time advances to the completion instant, the
statistics are recorded subject to the warm-up gate, and without yielding the
provider pops the next customer if any remain. -/
def completeStep (tstart : ℚ) (cur : Cust) (start : ℚ) (s : SimState) : SimState :=
  let tC := start + cur.serv
  let wn := record tstart tC cur.entry cur.priority s.w s.n
  startServe { s with now := tC, serving := none, w := wn.1, n := wn.2,
                      busy := s.busy + cur.serv, done := s.done + 1 }

/-- Dispatch of one arrival while a customer is in service (custarrivals lines
136-143 plus, on preemption, the provider interrupt handler lines 189-191 and
the following loop head, all without an intervening yield): the new customer is
pushed; if it has strictly higher priority the in-service customer is requeued
with its remaining service decremented by the elapsed quantum and the provider
immediately pops the new head of the queue. -/
def arriveStep (a : Arrival) (cur : Cust) (start : ℚ) (s : SimState) : SimState :=
  let nc : Cust := ⟨a.priority, a.t, a.serv⟩
  if a.priority < cur.priority then
    startServe { s with now := a.t, serving := none,
                        queue := push (push s.queue ⟨cur.priority, cur.entry,
                          cur.serv - (a.t - start)⟩) nc,
                        busy := s.busy + (a.t - start) }
  else
    { s with now := a.t, queue := push s.queue nc }

/-- Horizon test of env.run(until=SIM_TIME): an event is dispatched only at an
instant strictly before the horizon; with no horizon every event is dispatched. -/
def timeOK (hor : Option ℚ) (t : ℚ) : Bool :=
  match hor with
  | none => true
  | some h => decide (t < h)

/-- One dispatch of the event scheduler for the engine of
CBRS_WaitTime_Sim_v1.py.  The earliest pending event (next arrival or the
completion of the service quantum in progress) is executed; none means the run
has halted (nothing left, or the next event lies at or beyond the horizon).
Completion is dispatched before an arrival at the same instant. -/
def step (hor : Option ℚ) (tstart : ℚ) (c : SimConfig) : Option SimConfig :=
  match c.st.serving with
  | some (cur, start) =>
    match c.arrs with
    | a :: rest =>
      if a.t < start + cur.serv then
        if timeOK hor a.t then some ⟨rest, arriveStep a cur start c.st⟩ else none
      else
        if timeOK hor (start + cur.serv) then
          some ⟨c.arrs, completeStep tstart cur start c.st⟩
        else none
    | [] =>
      if timeOK hor (start + cur.serv) then
        some ⟨[], completeStep tstart cur start c.st⟩
      else none
  | none =>
    match c.st.queue with
    | _ :: _ => some ⟨c.arrs, startServe c.st⟩
    | [] =>
      match c.arrs with
      | [] => none
      | a :: rest =>
        if timeOK hor a.t then
          some ⟨rest, { c.st with now := a.t,
                                  serving := some (⟨a.priority, a.t, a.serv⟩, a.t) }⟩
        else none

/-- Fuelled iteration of the scheduler: dispatch at most k events. -/
def run (hor : Option ℚ) (tstart : ℚ) : ℕ → SimConfig → SimConfig
  | 0, c => c
  | k + 1, c =>
    match step hor tstart c with
    | none => c
    | some c' => run hor tstart k c'

/-- The fresh replicate state: empty queue, idle server, zeroed accumulators,
simulated clock at zero, with the arrival stream to be dispatched. -/
def initConfig (arrs : List Arrival) : SimConfig :=
  ⟨arrs, { now := 0, queue := [], serving := none, w := fun _ => 0,
           n := fun _ => 0, busy := 0, done := 0 }⟩

/-- Termination measure of a configuration: each dispatch strictly decreases it. -/
def sizeM (c : SimConfig) : ℕ :=
  3 * c.arrs.length + 2 * c.st.queue.length + (if c.st.serving.isSome then 1 else 0)

/-- Total number of jobs ever submitted to the replicate, in whatever stage:
pending arrival, queued, in service, or completed (ghost count). -/
def jobsTotal (c : SimConfig) : ℕ :=
  c.arrs.length + c.st.queue.length + (if c.st.serving.isSome then 1 else 0) + c.st.done

/-- Nondecreasing arrival instants of the generated stream. -/
def timeSortedArr : List Arrival → Bool
  | [] => true
  | [_] => true
  | a :: b :: t => decide (a.t ≤ b.t) && timeSortedArr (b :: t)

/-- Well-formedness of a mid-run configuration, for a run with horizon h:
the cooperative provider is idle only with an empty queue, pending arrivals lie
in the future in nondecreasing order with nonnegative service demands, queued
customers have nonnegative remaining service, the accumulated busy time is
dominated by the start of the quantum in progress, and the clock has not passed
the horizon. -/
def wfB (h : ℚ) (c : SimConfig) : Bool :=
  (match c.st.serving with
   | none => c.st.queue.isEmpty && decide (c.st.busy ≤ c.st.now)
   | some (cur, start) =>
       decide (c.st.busy ≤ start) && decide (start ≤ c.st.now) && decide (0 ≤ cur.serv)) &&
  c.arrs.all (fun a => decide (c.st.now ≤ a.t) && decide (0 ≤ a.serv)) &&
  timeSortedArr c.arrs &&
  c.st.queue.all (fun x => decide (0 ≤ x.serv)) &&
  sortedQ c.st.queue &&
  decide (c.st.now ≤ h)

/- ======== Provider coroutine fragments (CBRS_WaitTime_Preemption_Sim.py) ======== -/

/-- Interrupt handler of the provider coroutine (CBRS_WaitTime_Preemption_Sim.py
lines 150-153): on preemption the remaining service is decremented by the time
elapsed since the quantum began and the preemption counter of the job
increments; the job then re-requests the resource with its unchanged class
priority. -/
def providerInterrupt (serv start now : ℚ) (preemptions : ℕ) : ℚ × ℕ :=
  (serv - (now - start), preemptions + 1)

/-- Statistics recording of the provider coroutine
(CBRS_WaitTime_Preemption_Sim.py lines 156-160): gated on the completion
instant strictly exceeding the warm-up cutoff, the per-class totals of flow
time, completions and preemptions are incremented. -/
def record3 (tstart now arr : ℚ) (priority : ℕ) (preemptions : ℕ)
    (w : ℕ → ℚ) (n p : ℕ → ℕ) : (ℕ → ℚ) × (ℕ → ℕ) × (ℕ → ℕ) :=
  if tstart < now then
    (upd w priority (w priority + (now - arr)),
     upd n priority (n priority + 1),
     upd p priority (p priority + preemptions))
  else (w, n, p)

/- ======== Exceptional-service interrupt handler ======== -/

/-- Interrupt handler of the server in
MM1_Two_Class_Exceptional_Service_Per_Class_Sim.py (lines 150-154): the GU
busy-period flag is cleared and the interrupted customer is pushed back with
its decremented remaining service only when the interrupt did not land in the
setup phase; a customer whose setup is preempted is not reinserted.  Returns
the new GU-period flag and the new queue. -/
def exceptInterrupt (setup : Bool) (q : List Cust) (next : Cust) (start now : ℚ) :
    Bool × List Cust :=
  (false,
   if !setup then push q ⟨next.priority, next.entry, next.serv - (now - start)⟩
   else q)

/- ======== Trace-driven breakdown simulator (3_mg1_sbd_Model_A_traces.py) ======== -/

/-- Interrupt handler of the provider in 3_mg1_sbd_Model_A_traces.py (lines
104-108): the remaining service decrements by the elapsed quantum, the request
priority is lowered by 0.0001 so the preempted job re-requests ahead of its
class, and the preemption counter increments.  Returns the new
(serv_time, prio, preemption) triple. -/
def tracesInterrupt (serv_time pr start now : ℚ) (preemption : ℕ) :
    ℚ × ℚ × ℕ :=
  (serv_time - (now - start), pr - 1 / 10000, preemption + 1)

/-- Final request priority of a class-c customer after m preemptions: each
preemption lowers the request priority by 0.0001. -/
def prioAfter (c : ℕ) (m : ℕ) : ℚ :=
  (c : ℚ) - m * (1 / 10000)

/- ======== Configuration validation ======== -/

/-- Per-iteration mean of the wait accumulators as the main simulator loop of
CBRS_WaitTime_Preemption_Sim.py computes it (line 175, Waits[k] = w/n): an
unguarded elementwise division of the totals by the counts.  Rational division
by zero yields the junk value 0, standing for the NaN the float code produces. -/
def iterWaits (w : ℕ → ℚ) (n : ℕ → ℕ) (i : ℕ) : ℚ :=
  w i / (n i : ℚ)

/-- Per-iteration mean preemption count (line 177, Preemptions[k] = p/n), the
same unguarded division. -/
def iterPreempts (p : ℕ → ℕ) (n : ℕ → ℕ) (i : ℕ) : ℚ :=
  (p i : ℚ) / (n i : ℚ)

/-- Per-iteration counts row (line 176, Nums[k] = n): the raw counts are copied
out unchanged. -/
def numsRow (n : ℕ → ℕ) (i : ℕ) : ℕ :=
  n i

/-- Modelled from the spec (section 4.4 and section 7, empty-class statistics):
the collector surfaces an explicit undefined-mean condition for a class with
zero recorded completions instead of dividing; with a positive count it reports
the mean. -/
def specMeanOpt (w : ℕ → ℚ) (n : ℕ → ℕ) (i : ℕ) : Option ℚ :=
  if n i = 0 then none else some (w i / (n i : ℚ))

/- ======== Switchover engine (MM1_Two_Class_Switchover_Per_Class_Sim.py) ======== -/

/-- Activity of the switchover server: sleeping with an empty queue, serving a
customer since some start instant, or running the switchover period that
follows a PU busy period.  The switching phase keeps its start instant, the
drawn duration, and the priority of the last popped customer (the stale
self.next that the arrival interrupt test reads during the switchover). -/
inductive SwPhase where
  | idle
  | busy (cur : Cust) (start : ℚ)
  | switching (start dur : ℚ) (stale : ℕ)
deriving DecidableEq

/-- State of one replicate of the SimEnv of
MM1_Two_Class_Switchover_Per_Class_Sim.py: clock, heap queue, server activity,
per-class flow-time totals and counts, the count of primary users currently
present, and the PU busy-period flag. -/
structure SwState where
  now : ℚ
  queue : List Cust
  phase : SwPhase
  total_w : ℕ → ℚ
  n : ℕ → ℕ
  PUcount : ℤ
  PUperiod : Bool

/-- A running switchover replicate: pending arrivals, the stream of switchover
durations the server draws at each switchover start (indexed by how many draws
happened so far), and the engine state. -/
structure SwConfig where
  arrs : List Arrival
  durs : ℕ → ℚ
  dIdx : ℕ
  st : SwState

/-- The server pops the head of the queue and begins serving it, marking the
start of a PU busy period when the popped customer is a primary user (server
loop lines 128-139); with an empty queue it goes idle awaiting the wakeup. -/
def swServeNext (s : SwState) : SwState :=
  match s.queue with
  | [] => { s with phase := .idle }
  | cust :: rest =>
      { s with queue := rest,
               phase := .busy cust s.now,
               PUperiod := s.PUperiod || decide (cust.priority = 0) }

/-- End-of-iteration switchover test of the server loop (lines 152-157),
reached after a completion or a preemption of the customer whose priority is
stale: when a PU busy period is marked and no primary users remain, the PU
period ends and the switchover phase starts with the next drawn duration;
otherwise the loop simply pops the next customer or goes idle. -/
def swAfterService (stale : ℕ) (durs : ℕ → ℚ) (dIdx : ℕ) (s : SwState) :
    SwState × ℕ :=
  if s.PUperiod && decide (s.PUcount = 0) then
    ({ s with PUperiod := false, phase := .switching s.now (durs dIdx) stale },
     dIdx + 1)
  else (swServeNext s, dIdx)

/-- Statistics recording at a completion (server loop lines 142-148): gated on
the completion instant strictly exceeding T_START, the class flow-time total
and count increment, and the count of present primary users decrements when
the completing customer is a primary user. -/
def swRecord (tstart tC entry : ℚ) (priority : ℕ) (s : SwState) : SwState :=
  if tstart < tC then
    { s with total_w := upd s.total_w priority (s.total_w priority + (tC - entry)),
             n := upd s.n priority (s.n priority + 1),
             PUcount := if priority = 0 then s.PUcount - 1 else s.PUcount }
  else s

/-- Queue insertion and PU counting of one arrival (arrivals loop lines
91-108): the customer is pushed with its class, arrival instant and sampled
service length, and the running count of present primary users increments for
a PU arrival. -/
def swPushArrival (a : Arrival) (s : SwState) : SwState :=
  { s with queue := push s.queue ⟨a.priority, a.t, a.serv⟩,
           PUcount := if a.priority = 0 then s.PUcount + 1 else s.PUcount }

/-- One dispatch of the event scheduler for the switchover engine.  The
earliest pending event runs: the next arrival, the completion of the service
quantum in progress, or the end of the switchover period.  Arrival handling
follows lines 109-118: an idle server wakes and pops; a strictly higher
priority arrival preempts the customer in service, whose remaining service is
requeued (line 151) before the end-of-iteration switchover test; during a
switchover, the interrupt test compares against the stale popped priority, so
a PU arrival cancels the switchover (preemptive repeat, lines 159-161) and a
GU arrival leaves it running.  Completion records statistics and runs the
switchover test.  Ties dispatch the completion or switchover end first. -/
def swStep (tstart : ℚ) (c : SwConfig) : Option SwConfig :=
  match c.st.phase with
  | .idle =>
    match c.arrs with
    | [] => none
    | a :: rest =>
        some { c with arrs := rest,
                      st := swServeNext (swPushArrival a { c.st with now := a.t }) }
  | .busy cur start =>
    match c.arrs with
    | a :: rest =>
      if a.t < start + cur.serv then
        let s1 := swPushArrival a { c.st with now := a.t }
        if a.priority < cur.priority then
          let req : Cust := ⟨cur.priority, cur.entry, cur.serv - (a.t - start)⟩
          let s2 := { s1 with queue := push s1.queue req }
          let s3 := swAfterService cur.priority c.durs c.dIdx s2
          some { c with arrs := rest, dIdx := s3.2, st := s3.1 }
        else
          some { c with arrs := rest, st := s1 }
      else
        let s1 := swRecord tstart (start + cur.serv) cur.entry cur.priority
                    { c.st with now := start + cur.serv }
        let s2 := swAfterService cur.priority c.durs c.dIdx s1
        some { c with dIdx := s2.2, st := s2.1 }
    | [] =>
        let s1 := swRecord tstart (start + cur.serv) cur.entry cur.priority
                    { c.st with now := start + cur.serv }
        let s2 := swAfterService cur.priority c.durs c.dIdx s1
        some { c with dIdx := s2.2, st := s2.1 }
  | .switching start dur stale =>
    match c.arrs with
    | a :: rest =>
      if a.t < start + dur then
        let s1 := swPushArrival a { c.st with now := a.t }
        if decide (a.priority < stale) || decide (a.priority = 0) then
          some { c with arrs := rest, st := swServeNext s1 }
        else
          some { c with arrs := rest, st := s1 }
      else
        some { c with st := swServeNext { c.st with now := start + dur } }
    | [] =>
        some { c with st := swServeNext { c.st with now := start + dur } }

/-- Fuelled iteration of the switchover scheduler. -/
def swRun (tstart : ℚ) : ℕ → SwConfig → SwConfig
  | 0, c => c
  | k + 1, c =>
    match swStep tstart c with
    | none => c
    | some c' => swRun tstart k c'

/-- The phase is the switchover period. -/
def inSwitchover : SwPhase → Bool
  | .switching _ _ _ => true
  | _ => false

/-- Well-formedness of a switchover configuration for the clock-monotonicity
argument: pending arrivals lie in the future in nondecreasing order with
nonnegative service, queued and in-service customers have nonnegative
remaining service, a quantum or switchover in progress started no later than
the clock with a nonnegative drawn duration. -/
def swWfB (c : SwConfig) : Bool :=
  c.arrs.all (fun a => decide (c.st.now ≤ a.t) && decide (0 ≤ a.serv)) &&
  timeSortedArr c.arrs &&
  c.st.queue.all (fun x => decide (0 ≤ x.serv)) &&
  (match c.st.phase with
   | .idle => true
   | .busy cur start =>
       decide (start ≤ c.st.now) && decide (c.st.now ≤ start + cur.serv)
   | .switching start dur _ =>
       decide (start ≤ c.st.now) && decide (c.st.now ≤ start + dur))

theorem custKeyLE_total (a b : Cust) (h : custKeyLE a b = false) :
    custKeyLE b a = true := by
  simp only [custKeyLE, Bool.or_eq_true, Bool.and_eq_true, decide_eq_true_eq,
    Bool.or_eq_false_iff, Bool.and_eq_false_iff, decide_eq_false_iff_not] at h ⊢
  rcases h with ⟨h1, h2⟩
  rcases Nat.lt_trichotomy a.priority b.priority with hlt | heq | hgt
  · exact absurd hlt h1
  · rcases h2 with h2 | h2
    · exact absurd heq h2
    rcases h2 with ⟨h3, h4⟩
    right
    refine ⟨heq.symm, ?_⟩
    rcases lt_trichotomy a.entry b.entry with helt | heeq | hegt
    · exact absurd helt h3
    · rcases h4 with h4 | h4
      · exact absurd heeq h4
      · right
        exact ⟨heeq.symm, le_of_not_le h4⟩
    · left; exact hegt
  · left; exact hgt

theorem custKeyLE_trans {a b c : Cust} (hab : custKeyLE a b = true)
    (hbc : custKeyLE b c = true) : custKeyLE a c = true := by
  simp only [custKeyLE, Bool.or_eq_true, Bool.and_eq_true, decide_eq_true_eq] at hab hbc ⊢
  rcases hab with h1 | ⟨h1, h2⟩ <;> rcases hbc with h3 | ⟨h3, h4⟩
  · exact Or.inl (h1.trans h3)
  · exact Or.inl (h3 ▸ h1)
  · exact Or.inl (h1 ▸ h3)
  · refine Or.inr ⟨h1.trans h3, ?_⟩
    rcases h2 with h2 | ⟨h2, h2'⟩ <;> rcases h4 with h4 | ⟨h4, h4'⟩
    · exact Or.inl (h2.trans h4)
    · exact Or.inl (h4 ▸ h2)
    · exact Or.inl (h2 ▸ h4)
    · exact Or.inr ⟨h2.trans h4, h2'.trans h4'⟩

theorem mem_push {q : List Cust} {c x : Cust} :
    x ∈ push q c ↔ x ∈ q ∨ x = c := by
  induction q with
  | nil => simp [push]
  | cons y ys ih =>
    by_cases h : custKeyLE y c = true
    · simp only [push, h, if_pos, List.mem_cons, ih]
      tauto
    · simp only [push, h, if_neg, Bool.not_eq_true, List.mem_cons]
      tauto

theorem push_ne_nil (q : List Cust) (c : Cust) : push q c ≠ [] := by
  cases q with
  | nil => simp [push]
  | cons y ys =>
    simp only [push]
    split <;> simp

theorem length_push (q : List Cust) (c : Cust) :
    (push q c).length = q.length + 1 := by
  induction q with
  | nil => simp [push]
  | cons y ys ih =>
    simp only [push]
    split <;> simp [ih]

theorem sortedQ_cons {a : Cust} {t : List Cust} (h : sortedQ (a :: t) = true) :
    sortedQ t = true := by
  cases t with
  | nil => simp [sortedQ]
  | cons b u =>
    simp only [sortedQ, Bool.and_eq_true] at h
    exact h.2

theorem sortedQ_cons_le {a b : Cust} {t : List Cust}
    (h : sortedQ (a :: b :: t) = true) : custKeyLE a b = true := by
  simp only [sortedQ, Bool.and_eq_true] at h
  exact h.1

theorem sortedQ_head_le {a : Cust} {t : List Cust} (h : sortedQ (a :: t) = true) :
    ∀ x ∈ t, custKeyLE a x = true := by
  induction t generalizing a with
  | nil => intro x hx; cases hx
  | cons b u ih =>
    intro x hx
    have hab := sortedQ_cons_le h
    rcases List.mem_cons.mp hx with rfl | hx
    · exact hab
    · exact custKeyLE_trans hab (ih (sortedQ_cons h) x hx)

theorem sortedQ_push {q : List Cust} (c : Cust) (h : sortedQ q = true) :
    sortedQ (push q c) = true := by
  induction q with
  | nil => simp [push, sortedQ]
  | cons y ys ih =>
    by_cases hyc : custKeyLE y c = true
    · simp only [push, hyc, if_pos]
      have hys := ih (sortedQ_cons h)
      cases hys' : push ys c with
      | nil => exact absurd hys' (push_ne_nil ys c)
      | cons z zs =>
        have hz : z ∈ push ys c := by simp [hys']
        have hyz : custKeyLE y z = true := by
          rcases mem_push.mp hz with hzys | rfl
          · exact sortedQ_head_le h z hzys
          · exact hyc
        rw [hys'] at hys
        simpa [sortedQ, Bool.and_eq_true, hys'] using And.intro hyz hys
    · simp only [push, hyc, if_neg, Bool.not_eq_true]
      have hcy := custKeyLE_total y c (by simpa using hyc)
      simpa [sortedQ, Bool.and_eq_true] using And.intro hcy h

/- ===================== Arrival stream lemmas ===================== -/

theorem timeSortedArr_cons {a : Arrival} {rest : List Arrival}
    (h : timeSortedArr (a :: rest) = true) : timeSortedArr rest = true := by
  cases rest with
  | nil => simp [timeSortedArr]
  | cons b u =>
    simp only [timeSortedArr, Bool.and_eq_true] at h
    exact h.2

theorem timeSortedArr_head {a : Arrival} {rest : List Arrival}
    (h : timeSortedArr (a :: rest) = true) : ∀ b ∈ rest, a.t ≤ b.t := by
  induction rest generalizing a with
  | nil => intro b hb; cases hb
  | cons b u ih =>
    intro x hx
    have hab : a.t ≤ b.t := by
      simp only [timeSortedArr, Bool.and_eq_true, decide_eq_true_eq] at h
      exact h.1
    rcases List.mem_cons.mp hx with rfl | hx
    · exact hab
    · exact hab.trans (ih (timeSortedArr_cons h) x hx)

/- ===================== Engine well-formedness, unpacked ===================== -/

theorem wfB_iff (h : ℚ) (c : SimConfig) :
    wfB h c = true ↔
      (∀ cur start, c.st.serving = some (cur, start) →
          c.st.busy ≤ start ∧ start ≤ c.st.now ∧ 0 ≤ cur.serv) ∧
      (c.st.serving = none → c.st.queue = [] ∧ c.st.busy ≤ c.st.now) ∧
      (∀ a ∈ c.arrs, c.st.now ≤ a.t ∧ 0 ≤ a.serv) ∧
      timeSortedArr c.arrs = true ∧
      (∀ x ∈ c.st.queue, 0 ≤ x.serv) ∧
      sortedQ c.st.queue = true ∧
      c.st.now ≤ h := by
  obtain ⟨arrs, st⟩ := c
  obtain ⟨now, queue, serving, w, n, busy, done⟩ := st
  cases serving with
  | none =>
    simp only [wfB, Bool.and_eq_true, List.all_eq_true, decide_eq_true_eq,
      List.isEmpty_iff]
    constructor
    · rintro ⟨⟨⟨⟨⟨⟨hq, hb⟩, harr⟩, hsort⟩, hqs⟩, hqsort⟩, hnh⟩
      exact ⟨by simp, fun _ => ⟨hq, hb⟩, harr, hsort, hqs, hqsort, hnh⟩
    · rintro ⟨-, hidle, harr, hsort, hqs, hqsort, hnh⟩
      obtain ⟨hq, hb⟩ := hidle trivial
      exact ⟨⟨⟨⟨⟨⟨hq, hb⟩, harr⟩, hsort⟩, hqs⟩, hqsort⟩, hnh⟩
  | some p =>
    obtain ⟨cur, start⟩ := p
    simp only [wfB, Bool.and_eq_true, List.all_eq_true, decide_eq_true_eq,
      Option.some.injEq, Prod.mk.injEq]
    constructor
    · rintro ⟨⟨⟨⟨⟨⟨⟨hb, hs⟩, hserv⟩, harr⟩, hsort⟩, hqs⟩, hqsort⟩, hnh⟩
      refine ⟨?_, by simp, harr, hsort, hqs, hqsort, hnh⟩
      rintro cur' start' ⟨rfl, rfl⟩
      exact ⟨hb, hs, hserv⟩
    · rintro ⟨hsv, -, harr, hsort, hqs, hqsort, hnh⟩
      obtain ⟨hb, hs, hserv⟩ := hsv cur start ⟨rfl, rfl⟩
      exact ⟨⟨⟨⟨⟨⟨⟨hb, hs⟩, hserv⟩, harr⟩, hsort⟩, hqs⟩, hqsort⟩, hnh⟩

/- ===================== Step shape analysis ===================== -/

theorem step_cases {hor : Option ℚ} {tstart : ℚ} {c c' : SimConfig}
    (hs : step hor tstart c = some c') :
    (∃ cur start a rest, c.st.serving = some (cur, start) ∧ c.arrs = a :: rest ∧
        a.t < start + cur.serv ∧ timeOK hor a.t = true ∧
        c' = ⟨rest, arriveStep a cur start c.st⟩) ∨
    (∃ cur start, c.st.serving = some (cur, start) ∧
        timeOK hor (start + cur.serv) = true ∧
        (∀ a rest, c.arrs = a :: rest → start + cur.serv ≤ a.t) ∧
        c' = ⟨c.arrs, completeStep tstart cur start c.st⟩) ∨
    (∃ z zs, c.st.serving = none ∧ c.st.queue = z :: zs ∧
        c' = ⟨c.arrs, startServe c.st⟩) ∨
    (∃ a rest, c.st.serving = none ∧ c.st.queue = [] ∧ c.arrs = a :: rest ∧
        timeOK hor a.t = true ∧
        c' = ⟨rest,
              { c.st with now := a.t, serving := some (⟨a.priority, a.t, a.serv⟩, a.t) }⟩) := by
  obtain ⟨arrs, st⟩ := c
  obtain ⟨now, queue, serving, w, n, busy, done⟩ := st
  cases serving with
  | some p =>
    obtain ⟨cur, start⟩ := p
    cases arrs with
    | cons a rest =>
      by_cases hlt : a.t < start + cur.serv
      · by_cases hok : timeOK hor a.t = true
        · simp only [step, hlt, if_pos, hok, if_true, Option.some.injEq] at hs
          exact Or.inl ⟨cur, start, a, rest, rfl, rfl, hlt, hok, hs.symm⟩
        · exfalso
          simp only [Bool.not_eq_true] at hok
          simp [step, hlt, hok] at hs
      · by_cases hok : timeOK hor (start + cur.serv) = true
        · simp only [step, hlt, if_neg, hok, if_true, Option.some.injEq, not_false_iff] at hs
          refine Or.inr (Or.inl ⟨cur, start, rfl, hok, ?_, hs.symm⟩)
          rintro a' rest' heq
          obtain ⟨rfl, rfl⟩ : a' = a ∧ rest' = rest := by
            simpa using heq.symm
          exact le_of_not_lt hlt
        · exfalso
          simp only [Bool.not_eq_true] at hok
          simp [step, hlt, hok] at hs
    | nil =>
      by_cases hok : timeOK hor (start + cur.serv) = true
      · simp only [step, hok, if_true, Option.some.injEq] at hs
        exact Or.inr (Or.inl ⟨cur, start, rfl, hok, by rintro a' rest' ⟨⟩, hs.symm⟩)
      · exfalso
        simp only [Bool.not_eq_true] at hok
        simp [step, hok] at hs
  | none =>
    cases queue with
    | cons z zs =>
      simp only [step, Option.some.injEq] at hs
      exact Or.inr (Or.inr (Or.inl ⟨z, zs, rfl, rfl, hs.symm⟩))
    | nil =>
      cases arrs with
      | nil => simp [step] at hs
      | cons a rest =>
        by_cases hok : timeOK hor a.t = true
        · simp only [step, hok, if_true, Option.some.injEq] at hs
          exact Or.inr (Or.inr (Or.inr ⟨a, rest, rfl, rfl, rfl, hok, hs.symm⟩))
        · exfalso
          simp only [Bool.not_eq_true] at hok
          simp [step, hok] at hs

theorem startServe_nil {s : SimState} (h : s.queue = []) : startServe s = s := by
  simp only [startServe, h]

theorem startServe_cons {s : SimState} {z : Cust} {zs : List Cust}
    (h : s.queue = z :: zs) :
    startServe s = { s with queue := zs, serving := some (z, s.now) } := by
  simp only [startServe, h]

theorem arriveStep_preempt {a : Arrival} {cur : Cust} {start : ℚ} {s : SimState}
    (hp : a.priority < cur.priority) :
    arriveStep a cur start s =
      startServe { s with now := a.t, serving := none,
                          queue := push (push s.queue ⟨cur.priority, cur.entry,
                            cur.serv - (a.t - start)⟩) ⟨a.priority, a.t, a.serv⟩,
                          busy := s.busy + (a.t - start) } := by
  simp [arriveStep, hp]

theorem arriveStep_queue {a : Arrival} {cur : Cust} {start : ℚ} {s : SimState}
    (hp : ¬ a.priority < cur.priority) :
    arriveStep a cur start s =
      { s with now := a.t, queue := push s.queue ⟨a.priority, a.t, a.serv⟩ } := by
  simp [arriveStep, hp]

theorem completeStep_eq (tstart : ℚ) (cur : Cust) (start : ℚ) (s : SimState) :
    completeStep tstart cur start s =
      startServe { s with now := start + cur.serv, serving := none,
                          w := (record tstart (start + cur.serv) cur.entry cur.priority s.w s.n).1,
                          n := (record tstart (start + cur.serv) cur.entry cur.priority s.w s.n).2,
                          busy := s.busy + cur.serv, done := s.done + 1 } := rfl

theorem wf_step {h tstart : ℚ} {c c' : SimConfig}
    (hwf : wfB h c = true) (hs : step (some h) tstart c = some c') :
    wfB h c' = true := by
  rw [wfB_iff] at hwf
  obtain ⟨hbusy, hidle, harr, hsort, hqs, hqsort, hnh⟩ := hwf
  rcases step_cases hs with
    ⟨cur, start, a, rest, hserv, harrs, hlt, hok, rfl⟩ |
    ⟨cur, start, hserv, hok, hfirst, rfl⟩ |
    ⟨z, zs, hserv, hq, rfl⟩ |
    ⟨a, rest, hserv, hq, harrs, hok, rfl⟩
  · -- arrival while a customer is in service
    obtain ⟨hb, hst, hcs⟩ := hbusy cur start hserv
    have hah : a.t < h := by simpa [timeOK] using hok
    have hna := harr a (by simp [harrs])
    have hrest : ∀ b ∈ rest, a.t ≤ b.t :=
      fun b hb0 => timeSortedArr_head (harrs ▸ hsort) b hb0
    have hrestserv : ∀ b ∈ rest, 0 ≤ b.serv :=
      fun b hb0 => (harr b (by simp [harrs, hb0])).2
    have hrestsort := timeSortedArr_cons (harrs ▸ hsort)
    by_cases hp : a.priority < cur.priority
    · -- preemption: requeue the interrupted customer, pop the new head
      rw [wfB_iff, arriveStep_preempt hp]
      have hq2sort : sortedQ (push (push c.st.queue
          ⟨cur.priority, cur.entry, cur.serv - (a.t - start)⟩)
          ⟨a.priority, a.t, a.serv⟩) = true :=
        sortedQ_push _ (sortedQ_push _ hqsort)
      have hq2serv : ∀ x ∈ push (push c.st.queue
          ⟨cur.priority, cur.entry, cur.serv - (a.t - start)⟩)
          ⟨a.priority, a.t, a.serv⟩, 0 ≤ x.serv := by
        intro x hx
        rcases mem_push.mp hx with hx | rfl
        · rcases mem_push.mp hx with hx | rfl
          · exact hqs x hx
          · dsimp only
            linarith
        · exact hna.2
      cases hQ2 : push (push c.st.queue
          ⟨cur.priority, cur.entry, cur.serv - (a.t - start)⟩)
          ⟨a.priority, a.t, a.serv⟩ with
      | nil => exact absurd hQ2 (push_ne_nil _ _)
      | cons z zs =>
        rw [startServe_cons rfl]
        dsimp only
        refine ⟨?_, by simp, ?_, hrestsort, ?_, sortedQ_cons (hQ2 ▸ hq2sort), le_of_lt hah⟩
        · rintro cur' start' heq
          simp only [Option.some.injEq, Prod.mk.injEq] at heq
          obtain ⟨rfl, rfl⟩ := heq
          exact ⟨by linarith, le_refl _, hq2serv z (by simp [hQ2])⟩
        · exact fun b hb0 => ⟨hrest b hb0, hrestserv b hb0⟩
        · exact fun x hx => hq2serv x (by simp [hQ2, hx])
    · -- no preemption: the arrival queues, the quantum continues
      rw [wfB_iff, arriveStep_queue hp]
      dsimp only
      refine ⟨?_, by simp [hserv], ?_, hrestsort, ?_, sortedQ_push _ hqsort, le_of_lt hah⟩
      · rintro cur' start' heq
        rw [hserv] at heq
        simp only [Option.some.injEq, Prod.mk.injEq] at heq
        obtain ⟨rfl, rfl⟩ := heq
        exact ⟨hb, hst.trans hna.1, hcs⟩
      · exact fun b hb0 => ⟨hrest b hb0, hrestserv b hb0⟩
      · intro x hx
        rcases mem_push.mp hx with hx | rfl
        · exact hqs x hx
        · exact hna.2
  · -- completion of the quantum in progress
    obtain ⟨hb, hst, hcs⟩ := hbusy cur start hserv
    have htCh : start + cur.serv < h := by simpa [timeOK] using hok
    have harrtC : ∀ b ∈ c.arrs, start + cur.serv ≤ b.t := by
      intro b hbmem
      cases harrsh : c.arrs with
      | nil => rw [harrsh] at hbmem; cases hbmem
      | cons a rest =>
        have h1 : start + cur.serv ≤ a.t := hfirst a rest harrsh
        rw [harrsh] at hbmem
        rcases List.mem_cons.mp hbmem with rfl | hbm
        · exact h1
        · exact h1.trans (timeSortedArr_head (harrsh ▸ hsort) b hbm)
    rw [wfB_iff, completeStep_eq]
    cases hq : c.st.queue with
    | nil =>
      rw [startServe_nil rfl]
      dsimp only
      refine ⟨by rintro cur' start' ⟨⟩, ?_, ?_, hsort, ?_, rfl, le_of_lt htCh⟩
      · exact fun _ => ⟨rfl, by linarith⟩
      · exact fun b hbmem => ⟨harrtC b hbmem, (harr b hbmem).2⟩
      · intro x hx
        cases hx
    | cons z zs =>
      rw [startServe_cons rfl]
      dsimp only
      refine ⟨?_, by simp, ?_, hsort, ?_, sortedQ_cons (hq ▸ hqsort), le_of_lt htCh⟩
      · rintro cur' start' heq
        simp only [Option.some.injEq, Prod.mk.injEq] at heq
        obtain ⟨rfl, rfl⟩ := heq
        exact ⟨by linarith, le_refl _, hqs z (by simp [hq])⟩
      · exact fun b hbmem => ⟨harrtC b hbmem, (harr b hbmem).2⟩
      · exact fun x hx => hqs x (by simp [hq, hx])
  · -- an idle provider with a nonempty queue is unreachable
    obtain ⟨hqnil, -⟩ := hidle hserv
    rw [hq] at hqnil
    cases hqnil
  · -- arrival at an idle provider with an empty queue: served immediately
    obtain ⟨-, hbn⟩ := hidle hserv
    have hah : a.t < h := by simpa [timeOK] using hok
    have hna := harr a (by simp [harrs])
    rw [wfB_iff]
    dsimp only
    refine ⟨?_, by simp, ?_, timeSortedArr_cons (harrs ▸ hsort), ?_, ?_, le_of_lt hah⟩
    · rintro cur' start' heq
      simp only [Option.some.injEq, Prod.mk.injEq] at heq
      obtain ⟨rfl, rfl⟩ := heq
      exact ⟨hbn.trans hna.1, le_refl _, hna.2⟩
    · exact fun b hb0 => ⟨timeSortedArr_head (harrs ▸ hsort) b hb0,
        (harr b (by simp [harrs, hb0])).2⟩
    · intro x hx
      rw [hq] at hx
      cases hx
    · rw [hq]
      rfl

theorem wf_run {h tstart : ℚ} (k : ℕ) {c : SimConfig} (hwf : wfB h c = true) :
    wfB h (run (some h) tstart k c) = true := by
  induction k generalizing c with
  | zero => exact hwf
  | succ k ih =>
    rw [run]
    cases hs : step (some h) tstart c with
    | none => exact hwf
    | some c' => exact ih (wf_step hwf hs)

theorem sizeM_step {hor : Option ℚ} {tstart : ℚ} {c c' : SimConfig}
    (hs : step hor tstart c = some c') : sizeM c' < sizeM c := by
  rcases step_cases hs with
    ⟨cur, start, a, rest, hserv, harrs, hlt, hok, rfl⟩ |
    ⟨cur, start, hserv, hok, hfirst, rfl⟩ |
    ⟨z, zs, hserv, hq, rfl⟩ |
    ⟨a, rest, hserv, hq, harrs, hok, rfl⟩
  · by_cases hp : a.priority < cur.priority
    · rw [arriveStep_preempt hp]
      cases hP : push (push c.st.queue
          ⟨cur.priority, cur.entry, cur.serv - (a.t - start)⟩)
          ⟨a.priority, a.t, a.serv⟩ with
      | nil => exact absurd hP (push_ne_nil _ _)
      | cons z zs =>
        rw [startServe_cons rfl]
        have hlen : zs.length + 1 = c.st.queue.length + 2 := by
          have := congrArg List.length hP
          simpa [length_push] using this.symm
        simp [sizeM, harrs, hserv]
        omega
    · rw [arriveStep_queue hp]
      simp [sizeM, harrs, hserv, length_push]
      omega
  · rw [completeStep_eq]
    cases hq : c.st.queue with
    | nil =>
      rw [startServe_nil rfl]
      simp [sizeM, hserv, hq]
    | cons z zs =>
      rw [startServe_cons rfl]
      simp [sizeM, hserv, hq]
  · rw [startServe_cons hq]
    simp [sizeM, hserv, hq]
    omega
  · simp [sizeM, hserv, hq, harrs]
    omega

theorem jobs_step {hor : Option ℚ} {tstart : ℚ} {c c' : SimConfig}
    (hs : step hor tstart c = some c') : jobsTotal c' = jobsTotal c := by
  rcases step_cases hs with
    ⟨cur, start, a, rest, hserv, harrs, hlt, hok, rfl⟩ |
    ⟨cur, start, hserv, hok, hfirst, rfl⟩ |
    ⟨z, zs, hserv, hq, rfl⟩ |
    ⟨a, rest, hserv, hq, harrs, hok, rfl⟩
  · by_cases hp : a.priority < cur.priority
    · rw [arriveStep_preempt hp]
      cases hP : push (push c.st.queue
          ⟨cur.priority, cur.entry, cur.serv - (a.t - start)⟩)
          ⟨a.priority, a.t, a.serv⟩ with
      | nil => exact absurd hP (push_ne_nil _ _)
      | cons z zs =>
        rw [startServe_cons rfl]
        have hlen : zs.length + 1 = c.st.queue.length + 2 := by
          have := congrArg List.length hP
          simpa [length_push] using this.symm
        simp [jobsTotal, harrs, hserv]
        omega
    · rw [arriveStep_queue hp]
      simp [jobsTotal, harrs, hserv, length_push]
      try omega
  · rw [completeStep_eq]
    cases hq : c.st.queue with
    | nil =>
      rw [startServe_nil rfl]
      simp [jobsTotal, hserv, hq]
      try omega
    | cons z zs =>
      rw [startServe_cons rfl]
      simp [jobsTotal, hserv, hq]
      try omega
  · rw [startServe_cons hq]
    simp [jobsTotal, hserv, hq]
    try omega
  · simp [jobsTotal, hserv, hq, harrs]
    try omega

theorem jobs_run {hor : Option ℚ} {tstart : ℚ} (k : ℕ) (c : SimConfig) :
    jobsTotal (run hor tstart k c) = jobsTotal c := by
  induction k generalizing c with
  | zero => rfl
  | succ k ih =>
    rw [run]
    cases hs : step hor tstart c with
    | none => rfl
    | some c' => rw [ih c', jobs_step hs]

theorem step_none_shape {tstart : ℚ} {c : SimConfig}
    (hs : step none tstart c = none) :
    c.arrs = [] ∧ c.st.serving = none ∧ c.st.queue = [] := by
  obtain ⟨arrs, st⟩ := c
  obtain ⟨now, queue, serving, w, n, busy, done⟩ := st
  cases serving with
  | some p =>
    obtain ⟨cur, start⟩ := p
    cases arrs with
    | cons a rest =>
      by_cases hlt : a.t < start + cur.serv <;> simp [step, hlt, timeOK] at hs
    | nil => simp [step, timeOK] at hs
  | none =>
    cases queue with
    | cons z zs => simp [step] at hs
    | nil =>
      cases arrs with
      | nil => exact ⟨rfl, rfl, rfl⟩
      | cons a rest => simp [step, timeOK] at hs

theorem sizeM_zero_halt {tstart : ℚ} {c : SimConfig} (hz : sizeM c = 0) :
    step none tstart c = none := by
  obtain ⟨arrs, st⟩ := c
  obtain ⟨now, queue, serving, w, n, busy, done⟩ := st
  cases serving with
  | some p => simp [sizeM] at hz
  | none =>
    cases queue with
    | cons z zs => simp [sizeM] at hz
    | nil =>
      cases arrs with
      | cons a rest => simp [sizeM] at hz
      | nil => rfl

theorem run_halt_aux {hor : Option ℚ} {tstart : ℚ} {k : ℕ} {c : SimConfig}
    (hs : step hor tstart c = none) : run hor tstart k c = c := by
  cases k with
  | zero => rfl
  | succ k => rw [run, hs]

theorem run_drain {tstart : ℚ} (m : ℕ) (c : SimConfig) (hm : sizeM c ≤ m) :
    step none tstart (run none tstart m c) = none := by
  induction m generalizing c with
  | zero => exact sizeM_zero_halt (Nat.le_zero.mp hm)
  | succ m ih =>
    rw [run]
    cases hs : step none tstart c with
    | none => exact hs
    | some c' => exact ih c' (by have := sizeM_step hs; omega)

theorem record_skip {tstart tC entry : ℚ} {priority : ℕ} {w : ℕ → ℚ} {n : ℕ → ℕ}
    (h : ¬ tstart < tC) : record tstart tC entry priority w n = (w, n) := by
  simp [record, h]

theorem stats_step {h tstart : ℚ} {c c' : SimConfig} (hts : h ≤ tstart)
    (hs : step (some h) tstart c = some c') :
    c'.st.w = c.st.w ∧ c'.st.n = c.st.n := by
  rcases step_cases hs with
    ⟨cur, start, a, rest, hserv, harrs, hlt, hok, rfl⟩ |
    ⟨cur, start, hserv, hok, hfirst, rfl⟩ |
    ⟨z, zs, hserv, hq, rfl⟩ |
    ⟨a, rest, hserv, hq, harrs, hok, rfl⟩
  · by_cases hp : a.priority < cur.priority
    · rw [arriveStep_preempt hp]
      cases hP : push (push c.st.queue
          ⟨cur.priority, cur.entry, cur.serv - (a.t - start)⟩)
          ⟨a.priority, a.t, a.serv⟩ with
      | nil => exact absurd hP (push_ne_nil _ _)
      | cons z zs =>
        rw [startServe_cons rfl]
        exact ⟨rfl, rfl⟩
    · rw [arriveStep_queue hp]
      exact ⟨rfl, rfl⟩
  · have htC : start + cur.serv < h := by simpa [timeOK] using hok
    have hnr : ¬ tstart < start + cur.serv := by linarith
    rw [completeStep_eq, record_skip hnr]
    cases hq : c.st.queue with
    | nil =>
      rw [startServe_nil rfl]
      exact ⟨rfl, rfl⟩
    | cons z zs =>
      rw [startServe_cons rfl]
      exact ⟨rfl, rfl⟩
  · rw [startServe_cons hq]
    exact ⟨rfl, rfl⟩
  · exact ⟨rfl, rfl⟩

theorem stats_run {h tstart : ℚ} (hts : h ≤ tstart) (k : ℕ) (c : SimConfig) :
    (run (some h) tstart k c).st.w = c.st.w ∧
      (run (some h) tstart k c).st.n = c.st.n := by
  induction k generalizing c with
  | zero => exact ⟨rfl, rfl⟩
  | succ k ih =>
    rw [run]
    cases hs : step (some h) tstart c with
    | none => exact ⟨rfl, rfl⟩
    | some c' =>
      obtain ⟨hw, hn⟩ := stats_step hts hs
      obtain ⟨hw', hn'⟩ := ih c'
      exact ⟨hw'.trans hw, hn'.trans hn⟩

theorem custKeyLE_priority_entry {a b : Cust} (h : custKeyLE a b = true) :
    a.priority < b.priority ∨ (a.priority = b.priority ∧ a.entry ≤ b.entry) := by
  simp only [custKeyLE, Bool.or_eq_true, Bool.and_eq_true, decide_eq_true_eq] at h
  rcases h with h | ⟨h1, h2⟩
  · exact Or.inl h
  · refine Or.inr ⟨h1, ?_⟩
    rcases h2 with h2 | ⟨h2, -⟩
    · exact le_of_lt h2
    · exact le_of_eq h2

/- ===================== Switchover engine lemmas ===================== -/

theorem swServeNext_PUcount (s : SwState) :
    (swServeNext s).PUcount = s.PUcount := by
  cases hq : s.queue <;> simp [swServeNext, hq]

theorem swServeNext_now (s : SwState) : (swServeNext s).now = s.now := by
  cases hq : s.queue <;> simp [swServeNext, hq]

theorem swServeNext_not_switching (s : SwState) :
    inSwitchover (swServeNext s).phase = false := by
  cases hq : s.queue <;> simp [swServeNext, hq, inSwitchover]

theorem swAfterService_PUcount (stale : ℕ) (durs : ℕ → ℚ) (dIdx : ℕ) (s : SwState) :
    (swAfterService stale durs dIdx s).1.PUcount = s.PUcount := by
  by_cases hc : (s.PUperiod && decide (s.PUcount = 0)) = true <;>
    simp [swAfterService, hc, swServeNext_PUcount]

theorem swAfterService_now (stale : ℕ) (durs : ℕ → ℚ) (dIdx : ℕ) (s : SwState) :
    (swAfterService stale durs dIdx s).1.now = s.now := by
  by_cases hc : (s.PUperiod && decide (s.PUcount = 0)) = true <;>
    simp [swAfterService, hc, swServeNext_now]

theorem swAfterService_not_switching {s : SwState} (stale : ℕ) (durs : ℕ → ℚ)
    (dIdx : ℕ) (h : s.PUcount ≠ 0) :
    inSwitchover (swAfterService stale durs dIdx s).1.phase = false := by
  have hc : (s.PUperiod && decide (s.PUcount = 0)) = false := by
    simp [h]
  simp [swAfterService, hc, swServeNext_not_switching]

theorem swRecord_skip {tstart tC entry : ℚ} {priority : ℕ} {s : SwState}
    (h : ¬ tstart < tC) : swRecord tstart tC entry priority s = s := by
  simp [swRecord, h]

theorem swRecord_now (tstart tC entry : ℚ) (priority : ℕ) (s : SwState) :
    (swRecord tstart tC entry priority s).now = s.now := by
  by_cases h : tstart < tC <;> simp [swRecord, h]

theorem swPushArrival_PUcount_ge (a : Arrival) (s : SwState) :
    s.PUcount ≤ (swPushArrival a s).PUcount := by
  by_cases h : a.priority = 0 <;> simp [swPushArrival, h]

theorem swPushArrival_now (a : Arrival) (s : SwState) :
    (swPushArrival a s).now = s.now := rfl

theorem swPushArrival_phase (a : Arrival) (s : SwState) :
    (swPushArrival a s).phase = s.phase := rfl

theorem swStep_cases {tstart : ℚ} {c c' : SwConfig}
    (hs : swStep tstart c = some c') :
    (∃ a rest, c.st.phase = .idle ∧ c.arrs = a :: rest ∧
      c' = ⟨rest, c.durs, c.dIdx, swServeNext (swPushArrival a { c.st with now := a.t })⟩) ∨
    (∃ cur start a rest, c.st.phase = .busy cur start ∧ c.arrs = a :: rest ∧
      a.t < start + cur.serv ∧ a.priority < cur.priority ∧
      c' = ⟨rest, c.durs,
        (swAfterService cur.priority c.durs c.dIdx
          { swPushArrival a { c.st with now := a.t } with
            queue := push (swPushArrival a { c.st with now := a.t }).queue
              ⟨cur.priority, cur.entry, cur.serv - (a.t - start)⟩ }).2,
        (swAfterService cur.priority c.durs c.dIdx
          { swPushArrival a { c.st with now := a.t } with
            queue := push (swPushArrival a { c.st with now := a.t }).queue
              ⟨cur.priority, cur.entry, cur.serv - (a.t - start)⟩ }).1⟩) ∨
    (∃ cur start a rest, c.st.phase = .busy cur start ∧ c.arrs = a :: rest ∧
      a.t < start + cur.serv ∧ ¬ a.priority < cur.priority ∧
      c' = ⟨rest, c.durs, c.dIdx, swPushArrival a { c.st with now := a.t }⟩) ∨
    (∃ cur start, c.st.phase = .busy cur start ∧
      (∀ a rest, c.arrs = a :: rest → start + cur.serv ≤ a.t) ∧
      c' = ⟨c.arrs, c.durs,
        (swAfterService cur.priority c.durs c.dIdx
          (swRecord tstart (start + cur.serv) cur.entry cur.priority
            { c.st with now := start + cur.serv })).2,
        (swAfterService cur.priority c.durs c.dIdx
          (swRecord tstart (start + cur.serv) cur.entry cur.priority
            { c.st with now := start + cur.serv })).1⟩) ∨
    (∃ start dur stale a rest, c.st.phase = .switching start dur stale ∧
      c.arrs = a :: rest ∧ a.t < start + dur ∧
      (a.priority < stale ∨ a.priority = 0) ∧
      c' = ⟨rest, c.durs, c.dIdx, swServeNext (swPushArrival a { c.st with now := a.t })⟩) ∨
    (∃ start dur stale a rest, c.st.phase = .switching start dur stale ∧
      c.arrs = a :: rest ∧ a.t < start + dur ∧
      ¬ (a.priority < stale ∨ a.priority = 0) ∧
      c' = ⟨rest, c.durs, c.dIdx, swPushArrival a { c.st with now := a.t }⟩) ∨
    (∃ start dur stale, c.st.phase = .switching start dur stale ∧
      (∀ a rest, c.arrs = a :: rest → start + dur ≤ a.t) ∧
      c' = ⟨c.arrs, c.durs, c.dIdx, swServeNext { c.st with now := start + dur }⟩) := by
  obtain ⟨arrs, durs, dIdx, st⟩ := c
  obtain ⟨now, queue, phase, total_w, n, PUcount, PUperiod⟩ := st
  cases phase with
  | idle =>
    cases arrs with
    | nil => simp [swStep] at hs
    | cons a rest =>
      simp only [swStep, Option.some.injEq] at hs
      exact Or.inl ⟨a, rest, rfl, rfl, hs.symm⟩
  | busy cur start =>
    cases arrs with
    | cons a rest =>
      by_cases hlt : a.t < start + cur.serv
      · by_cases hp : a.priority < cur.priority
        · simp only [swStep, hlt, if_pos, hp, Option.some.injEq] at hs
          exact Or.inr (Or.inl ⟨cur, start, a, rest, rfl, rfl, hlt, hp, hs.symm⟩)
        · simp only [swStep, hlt, if_pos, hp, if_neg, not_false_iff,
            Option.some.injEq] at hs
          exact Or.inr (Or.inr (Or.inl ⟨cur, start, a, rest, rfl, rfl, hlt, hp, hs.symm⟩))
      · simp only [swStep, hlt, if_neg, not_false_iff, Option.some.injEq] at hs
        refine Or.inr (Or.inr (Or.inr (Or.inl ⟨cur, start, rfl, ?_, hs.symm⟩)))
        rintro a' rest' heq
        obtain ⟨rfl, rfl⟩ : a' = a ∧ rest' = rest := by simpa using heq.symm
        exact le_of_not_lt hlt
    | nil =>
      simp only [swStep, Option.some.injEq] at hs
      exact Or.inr (Or.inr (Or.inr (Or.inl ⟨cur, start, rfl, by rintro a' rest' ⟨⟩,
        hs.symm⟩)))
  | switching start dur stale =>
    cases arrs with
    | cons a rest =>
      by_cases hlt : a.t < start + dur
      · by_cases hp : (decide (a.priority < stale) || decide (a.priority = 0)) = true
        · simp only [swStep, hlt, if_pos, hp, if_true, Option.some.injEq] at hs
          refine Or.inr (Or.inr (Or.inr (Or.inr (Or.inl
            ⟨start, dur, stale, a, rest, rfl, rfl, hlt, ?_, hs.symm⟩))))
          simpa using hp
        · simp only [Bool.or_eq_true, decide_eq_true_eq] at hp
          have hp' : (decide (a.priority < stale) || decide (a.priority = 0)) = false := by
            simpa using hp
          simp only [swStep, hlt, if_pos, hp', Bool.false_eq_true, if_false,
            Option.some.injEq] at hs
          exact Or.inr (Or.inr (Or.inr (Or.inr (Or.inr (Or.inl
            ⟨start, dur, stale, a, rest, rfl, rfl, hlt, hp, hs.symm⟩)))))
      · simp only [swStep, hlt, if_neg, not_false_iff, Option.some.injEq] at hs
        refine Or.inr (Or.inr (Or.inr (Or.inr (Or.inr (Or.inr
          ⟨start, dur, stale, rfl, ?_, hs.symm⟩)))))
        rintro a' rest' heq
        obtain ⟨rfl, rfl⟩ : a' = a ∧ rest' = rest := by simpa using heq.symm
        exact le_of_not_lt hlt
    | nil =>
      simp only [swStep, Option.some.injEq] at hs
      exact Or.inr (Or.inr (Or.inr (Or.inr (Or.inr (Or.inr
        ⟨start, dur, stale, rfl, by rintro a' rest' ⟨⟩, hs.symm⟩)))))

theorem swPushArrival_PUcount (a : Arrival) (s : SwState) :
    (swPushArrival a s).PUcount =
      if a.priority = 0 then s.PUcount + 1 else s.PUcount := rfl

theorem swStep_PUcount_mono {tstart : ℚ} {c c' : SwConfig}
    (hs : swStep tstart c = some c') (hwarm : c'.st.now ≤ tstart) :
    c.st.PUcount ≤ c'.st.PUcount := by
  rcases swStep_cases hs with
    ⟨a, rest, hph, harr, rfl⟩ |
    ⟨cur, start, a, rest, hph, harr, hlt, hp, rfl⟩ |
    ⟨cur, start, a, rest, hph, harr, hlt, hp, rfl⟩ |
    ⟨cur, start, hph, hfirst, rfl⟩ |
    ⟨start, dur, stale, a, rest, hph, harr, hlt, hp, rfl⟩ |
    ⟨start, dur, stale, a, rest, hph, harr, hlt, hp, rfl⟩ |
    ⟨start, dur, stale, hph, hfirst, rfl⟩
  · simp only [swServeNext_PUcount]
    exact swPushArrival_PUcount_ge a _
  · simp only [swAfterService_PUcount]
    exact swPushArrival_PUcount_ge a _
  · exact swPushArrival_PUcount_ge a _
  · simp only [swAfterService_now, swRecord_now] at hwarm
    have hnr : ¬ tstart < start + cur.serv := not_lt.mpr hwarm
    simp only [swAfterService_PUcount, swRecord_skip hnr]
    exact le_refl _
  · simp only [swServeNext_PUcount]
    exact swPushArrival_PUcount_ge a _
  · exact swPushArrival_PUcount_ge a _
  · simp only [swServeNext_PUcount]
    exact le_refl _

theorem swStep_no_switch_entry {tstart : ℚ} {c c' : SwConfig}
    (hs : swStep tstart c = some c') (hwarm : c'.st.now ≤ tstart)
    (hpu : 1 ≤ c.st.PUcount) (hns : inSwitchover c.st.phase = false) :
    inSwitchover c'.st.phase = false := by
  rcases swStep_cases hs with
    ⟨a, rest, hph, harr, rfl⟩ |
    ⟨cur, start, a, rest, hph, harr, hlt, hp, rfl⟩ |
    ⟨cur, start, a, rest, hph, harr, hlt, hp, rfl⟩ |
    ⟨cur, start, hph, hfirst, rfl⟩ |
    ⟨start, dur, stale, a, rest, hph, harr, hlt, hp, rfl⟩ |
    ⟨start, dur, stale, a, rest, hph, harr, hlt, hp, rfl⟩ |
    ⟨start, dur, stale, hph, hfirst, rfl⟩
  · exact swServeNext_not_switching _
  · refine swAfterService_not_switching _ _ _ ?_
    have := swPushArrival_PUcount_ge a { c.st with now := a.t }
    dsimp only at this ⊢
    omega
  · show inSwitchover (swPushArrival a { c.st with now := a.t }).phase = false
    rw [swPushArrival_phase]
    show inSwitchover c.st.phase = false
    exact hns
  · simp only [swAfterService_now, swRecord_now] at hwarm
    have hnr : ¬ tstart < start + cur.serv := not_lt.mpr hwarm
    refine swAfterService_not_switching _ _ _ ?_
    rw [swRecord_skip hnr]
    dsimp only
    omega
  · exact swServeNext_not_switching _
  · rw [hph] at hns
    simp [inSwitchover] at hns
  · rw [hph] at hns
    simp [inSwitchover] at hns

theorem swRecord_PUcount_lt {tstart tC entry : ℚ} {priority : ℕ} {s : SwState}
    (h : (swRecord tstart tC entry priority s).PUcount < s.PUcount) :
    priority = 0 ∧ tstart < tC ∧
      (swRecord tstart tC entry priority s).PUcount = s.PUcount - 1 := by
  by_cases hg : tstart < tC
  · by_cases hp : priority = 0
    · refine ⟨hp, hg, ?_⟩
      simp [swRecord, hg, hp]
    · exfalso
      simp [swRecord, hg, hp] at h
  · exfalso
    rw [swRecord_skip hg] at h
    exact lt_irrefl _ h

theorem swStep_PUcount_decrement {tstart : ℚ} {c c' : SwConfig}
    (hs : swStep tstart c = some c')
    (hdec : c'.st.PUcount < c.st.PUcount) :
    ∃ cur start, c.st.phase = .busy cur start ∧ cur.priority = 0 ∧
      tstart < start + cur.serv ∧ c'.st.now = start + cur.serv ∧
      c'.st.PUcount = c.st.PUcount - 1 := by
  rcases swStep_cases hs with
    ⟨a, rest, hph, harr, rfl⟩ |
    ⟨cur, start, a, rest, hph, harr, hlt, hp, rfl⟩ |
    ⟨cur, start, a, rest, hph, harr, hlt, hp, rfl⟩ |
    ⟨cur, start, hph, hfirst, rfl⟩ |
    ⟨start, dur, stale, a, rest, hph, harr, hlt, hp, rfl⟩ |
    ⟨start, dur, stale, a, rest, hph, harr, hlt, hp, rfl⟩ |
    ⟨start, dur, stale, hph, hfirst, rfl⟩
  · exfalso
    simp only [swServeNext_PUcount] at hdec
    have := swPushArrival_PUcount_ge a { c.st with now := a.t }
    dsimp only at this hdec
    omega
  · exfalso
    simp only [swAfterService_PUcount] at hdec
    have := swPushArrival_PUcount_ge a { c.st with now := a.t }
    dsimp only at this hdec
    omega
  · exfalso
    have := swPushArrival_PUcount_ge a { c.st with now := a.t }
    dsimp only at this hdec
    omega
  · simp only [swAfterService_PUcount] at hdec
    obtain ⟨hp0, hg, hval⟩ := swRecord_PUcount_lt hdec
    refine ⟨cur, start, hph, hp0, hg, ?_, ?_⟩
    · simp [swAfterService_now, swRecord_now]
    · simp only [swAfterService_PUcount]
      rw [hval]
  · exfalso
    simp only [swServeNext_PUcount] at hdec
    have := swPushArrival_PUcount_ge a { c.st with now := a.t }
    dsimp only at this hdec
    omega
  · exfalso
    have := swPushArrival_PUcount_ge a { c.st with now := a.t }
    dsimp only at this hdec
    omega
  · exfalso
    simp [swServeNext_PUcount] at hdec

theorem swRun_succ_of_step {tstart : ℚ} {c c' : SwConfig} {j : ℕ}
    (hs : swStep tstart c = some c') :
    swRun tstart (j + 1) c = swRun tstart j c' := by
  rw [swRun, hs]

theorem swRun_halt {tstart : ℚ} {c : SwConfig} {k : ℕ}
    (hs : swStep tstart c = none) : swRun tstart k c = c := by
  cases k with
  | zero => rfl
  | succ k => rw [swRun, hs]

theorem swRun_warm {tstart : ℚ} (k : ℕ) {c : SwConfig}
    (hwarm : ∀ j, j ≤ k → (swRun tstart j c).st.now ≤ tstart)
    (hpu : 1 ≤ c.st.PUcount) (hns : inSwitchover c.st.phase = false) :
    1 ≤ (swRun tstart k c).st.PUcount ∧
      inSwitchover (swRun tstart k c).st.phase = false := by
  induction k generalizing c with
  | zero => exact ⟨hpu, hns⟩
  | succ k ih =>
    cases hs : swStep tstart c with
    | none =>
      rw [swRun_halt hs]
      exact ⟨hpu, hns⟩
    | some c' =>
      have h1 : swRun tstart 1 c = c' := by
        rw [swRun_succ_of_step hs]
        rfl
      have hc'now : c'.st.now ≤ tstart := by
        have := hwarm 1 (by omega)
        rwa [h1] at this
      have hpu' : 1 ≤ c'.st.PUcount :=
        le_trans hpu (swStep_PUcount_mono hs hc'now)
      have hns' : inSwitchover c'.st.phase = false :=
        swStep_no_switch_entry hs hc'now hpu hns
      rw [swRun_succ_of_step hs]
      refine ih ?_ hpu' hns'
      intro j hj
      have := hwarm (j + 1) (by omega)
      rwa [swRun_succ_of_step hs] at this

/- ===================== Trace-driven class attribution lemmas ===================== -/

theorem tracesInterrupt_parts (serv_time pr start now : ℚ) (preemption : ℕ) :
    (tracesInterrupt serv_time pr start now preemption).1 = serv_time - (now - start) ∧
    (tracesInterrupt serv_time pr start now preemption).2.1 = pr - 1 / 10000 ∧
    (tracesInterrupt serv_time pr start now preemption).2.2 = preemption + 1 :=
  ⟨rfl, rfl, rfl⟩

theorem mem_tail_of_push_push {q : List Cust} {req nc : Cust}
    (hq : sortedQ q = true) (hp : nc.priority < req.priority) {z : Cust}
    {zs : List Cust} (hP : push (push q req) nc = z :: zs) : req ∈ zs := by
  have hmem : req ∈ z :: zs := hP ▸ mem_push.mpr (Or.inl (mem_push.mpr (Or.inr rfl)))
  rcases List.mem_cons.mp hmem with heqz | hmem2
  · exfalso
    rw [← heqz] at hP
    have hsorted : sortedQ (req :: zs) = true :=
      hP ▸ sortedQ_push _ (sortedQ_push _ hq)
    have hncmem : nc ∈ req :: zs := hP ▸ mem_push.mpr (Or.inr rfl)
    have hnc_ne : nc ≠ req := by
      intro he
      rw [he] at hp
      exact lt_irrefl _ hp
    have hnczs : nc ∈ zs := by
      rcases List.mem_cons.mp hncmem with he | h2
      · exact absurd he hnc_ne
      · exact h2
    rcases custKeyLE_priority_entry (sortedQ_head_le hsorted nc hnczs) with h1 | ⟨h1, -⟩
    · omega
    · omega
  · exact hmem2

theorem arriveStep_requeue_mem {a : Arrival} {cur : Cust} {start : ℚ} {s : SimState}
    (hp : a.priority < cur.priority) (hq : sortedQ s.queue = true) :
    (⟨cur.priority, cur.entry, cur.serv - (a.t - start)⟩ : Cust) ∈
        (arriveStep a cur start s).queue ∧
      sortedQ (arriveStep a cur start s).queue = true := by
  rw [arriveStep_preempt hp]
  cases hP : push (push s.queue ⟨cur.priority, cur.entry, cur.serv - (a.t - start)⟩)
      ⟨a.priority, a.t, a.serv⟩ with
  | nil => exact absurd hP (push_ne_nil _ _)
  | cons z zs =>
    rw [startServe_cons rfl]
    refine ⟨?_, ?_⟩
    · exact mem_tail_of_push_push hq hp hP
    · exact sortedQ_cons (hP ▸ sortedQ_push _ (sortedQ_push _ hq))

/- ===================== Claim C10 ===================== -/

/-- C6 counterexample: with zero recorded class-2 completions (count 0, total
wait 7) the main simulator loop computes the class-2 mean by dividing anyway;
in the rational model the unguarded division by the zero count yields the junk
value 0 (NaN in the float code), so the computed row disagrees with the
spec-modelled collector, which surfaces the explicit undefined mean: no
defined no-samples condition is raised before the division. -/
theorem C6_counterexample :
    (fun _ : ℕ => (0 : ℕ)) 2 = 0 ∧
    some (iterWaits (fun _ => 7) (fun _ => 0) 2) ≠
      specMeanOpt (fun _ => 7) (fun _ => 0) 2 := by
  refine ⟨rfl, ?_⟩
  simp [iterWaits, specMeanOpt]

/-- C6 amended: the per-iteration reduction copies the raw counts out unchanged
(so a zero count is visible to the caller through the Nums row) and for a class
with a positive count the unguarded mean agrees with the spec-modelled
collector; but for a class with zero completions the mean wait and the mean
preemption count are computed by dividing by the zero count anyway, yielding
the junk value of division by zero instead of an explicit undefined-mean
condition. -/
theorem C6_division (w : ℕ → ℚ) (p n : ℕ → ℕ) (i : ℕ) :
    numsRow n i = n i ∧
    (0 < n i → some (iterWaits w n i) = specMeanOpt w n i) ∧
    (n i = 0 → iterWaits w n i = 0 ∧ iterPreempts p n i = 0 ∧
      specMeanOpt w n i = none) := by
  refine ⟨rfl, ?_, ?_⟩
  · intro h
    rw [specMeanOpt, if_neg (by omega)]
    rfl
  · intro h
    refine ⟨?_, ?_, ?_⟩
    · simp [iterWaits, h]
    · simp [iterPreempts, h]
    · simp [specMeanOpt, h]

/-- C6 witness: with three class-1 completions the computed mean agrees with the
spec collector; with zero class-0 completions the computed mean is the junk 0. -/
theorem C6_witness :
    some (iterWaits (fun _ => 6) (fun _ => 3) 1) =
      specMeanOpt (fun _ => 6) (fun _ => 3) 1 ∧
    iterWaits (fun _ => 7) (fun _ => 0) 0 = 0 :=
  ⟨(C6_division (fun _ => 6) (fun _ => 0) (fun _ => 3) 1).2.1 (by decide),
   ((C6_division (fun _ => 7) (fun _ => 0) (fun _ => 0) 0).2.2 rfl).1⟩

/- ===================== Claim C1 ===================== -/

/-- C1 counterexample: in the trace-driven breakdown simulator a class-1 job
preempted once re-requests the server with priority 1 - 0.0001, not its
original class priority 1 (the handler deliberately lowers the priority by
0.0001 per preemption, line 107), so the claim that a preempted job is
re-inserted at its original class priority fails at this input. -/
theorem C1_counterexample : (tracesInterrupt 5 1 0 2 0).2.1 ≠ 1 := by
  rw [(tracesInterrupt_parts 5 1 0 2 0).2.1]
  norm_num

/-- C1 amended: on preemption the remaining service decrements by exactly the
elapsed quantum and the preemption count increments by one; in the heap-based
engines the interrupted customer is re-inserted at its original class priority
with its arrival time unchanged and the queue stays sorted, preserving FIFO
order within the class; in the trace-driven variant the re-request priority is
instead lowered by 0.0001 per preemption, placing the preempted job ahead of
its class. -/
theorem C1_preemption_requeue :
    (∀ (a : Arrival) (cur : Cust) (start : ℚ) (s : SimState),
        a.priority < cur.priority → sortedQ s.queue = true →
        (⟨cur.priority, cur.entry, cur.serv - (a.t - start)⟩ : Cust) ∈
            (arriveStep a cur start s).queue ∧
          sortedQ (arriveStep a cur start s).queue = true) ∧
    (∀ (serv start now : ℚ) (preemptions : ℕ),
        providerInterrupt serv start now preemptions =
          (serv - (now - start), preemptions + 1)) ∧
    (∀ (serv_time pr start now : ℚ) (preemption : ℕ),
        tracesInterrupt serv_time pr start now preemption =
          (serv_time - (now - start), pr - 1 / 10000, preemption + 1)) :=
  ⟨fun _ _ _ _ hp hq => arriveStep_requeue_mem hp hq,
   fun _ _ _ _ => rfl, fun _ _ _ _ _ => rfl⟩

/-- C1 witness: an incumbent arrival at t = 2 preempting the class-2 customer
in service since t = 0 re-inserts that customer at priority 2 with entry 0 and
remaining service 5 - (2 - 0), and the queue remains sorted. -/
theorem C1_witness :
    ((0 : ℕ) < 2) ∧ sortedQ [] = true ∧
    ((⟨2, 0, 5 - ((2 : ℚ) - 0)⟩ : Cust) ∈
        (arriveStep ⟨2, 0, 1⟩ ⟨2, 0, 5⟩ 0
          { now := 2, queue := [], serving := some (⟨2, 0, 5⟩, 0), w := fun _ => 0,
            n := fun _ => 0, busy := 0, done := 0 }).queue ∧
      sortedQ (arriveStep ⟨2, 0, 1⟩ ⟨2, 0, 5⟩ 0
          { now := 2, queue := [], serving := some (⟨2, 0, 5⟩, 0), w := fun _ => 0,
            n := fun _ => 0, busy := 0, done := 0 }).queue = true) :=
  ⟨by decide, rfl,
   C1_preemption_requeue.1 ⟨2, 0, 1⟩ ⟨2, 0, 5⟩ 0
     { now := 2, queue := [], serving := some (⟨2, 0, 5⟩, 0), w := fun _ => 0,
       n := fun _ => 0, busy := 0, done := 0 } (by decide) rfl⟩

/- ===================== Claim C2 ===================== -/

/-- C2: the per-class accumulators change exactly when the completion instant
strictly exceeds the warm-up cutoff — the completing job's class then gains its
flow time, one completion and its preemption count — a completion at or before
the cutoff leaves every accumulator unchanged, and a replicate whose cutoff is
at or beyond the horizon records zero completions and zero wait in every
class. -/
theorem C2_warmup_gating (tstart now arr : ℚ) (priority preemptions : ℕ)
    (w : ℕ → ℚ) (n p : ℕ → ℕ) :
    (tstart < now →
        record3 tstart now arr priority preemptions w n p =
          (upd w priority (w priority + (now - arr)),
           upd n priority (n priority + 1),
           upd p priority (p priority + preemptions))) ∧
    (¬ tstart < now →
        record3 tstart now arr priority preemptions w n p = (w, n, p)) ∧
    (∀ (h : ℚ) (k : ℕ) (arrs : List Arrival), h ≤ tstart →
        (run (some h) tstart k (initConfig arrs)).st.n = fun _ => 0) ∧
    (∀ (h : ℚ) (k : ℕ) (arrs : List Arrival), h ≤ tstart →
        (run (some h) tstart k (initConfig arrs)).st.w = fun _ => 0) := by
  refine ⟨fun hg => by simp [record3, hg], fun hg => by simp [record3, hg], ?_, ?_⟩
  · intro h k arrs hts
    exact (stats_run hts k (initConfig arrs)).2
  · intro h k arrs hts
    exact (stats_run hts k (initConfig arrs)).1

/-- C2 witness: a completion at time 1 past cutoff 0 increments exactly the
class-2 accumulators, and a two-event run with horizon 5 below the cutoff 7
records zero completions in every class. -/
theorem C2_witness :
    record3 0 1 0 2 3 (fun _ => 0) (fun _ => 0) (fun _ => 0) =
      (upd (fun _ => 0) 2 ((fun _ : ℕ => (0 : ℚ)) 2 + ((1 : ℚ) - 0)),
       upd (fun _ => 0) 2 ((fun _ : ℕ => (0 : ℕ)) 2 + 1),
       upd (fun _ => 0) 2 ((fun _ : ℕ => (0 : ℕ)) 2 + 3)) ∧
    (run (some 5) 7 2 (initConfig [⟨1, 0, 4⟩])).st.n = fun _ => 0 :=
  ⟨(C2_warmup_gating 0 1 0 2 3 (fun _ => 0) (fun _ => 0) (fun _ => 0)).1 (by decide),
   (C2_warmup_gating 7 0 0 0 0 (fun _ => 0) (fun _ => 0) (fun _ => 0)).2.2.1
     5 2 [⟨1, 0, 4⟩] (by decide)⟩

/- ===================== Claim C3 ===================== -/

/-- C3: an arrival preempts the customer in service only when its priority is
numerically strictly smaller — an arrival of equal (or larger) priority only
queues and the quantum in progress continues unchanged — while a strictly
smaller priority interrupts the quantum and requeues the customer in service;
the server always pops the head of the sorted queue, which among equal-priority
customers is one with the earliest arrival time. -/
theorem C3_preemption_tiebreak :
    (∀ (a : Arrival) (cur : Cust) (start : ℚ) (s : SimState),
        ¬ a.priority < cur.priority →
        arriveStep a cur start s =
          { s with now := a.t, queue := push s.queue ⟨a.priority, a.t, a.serv⟩ }) ∧
    (∀ (a : Arrival) (cur : Cust) (start : ℚ) (s : SimState),
        ¬ a.priority < cur.priority →
        (arriveStep a cur start s).serving = s.serving) ∧
    (∀ (a : Arrival) (cur : Cust) (start : ℚ) (s : SimState),
        a.priority < cur.priority → sortedQ s.queue = true →
        (⟨cur.priority, cur.entry, cur.serv - (a.t - start)⟩ : Cust) ∈
          (arriveStep a cur start s).queue) ∧
    (∀ (z : Cust) (zs : List Cust), sortedQ (z :: zs) = true →
        ∀ x ∈ zs, z.priority < x.priority ∨
          (z.priority = x.priority ∧ z.entry ≤ x.entry)) ∧
    (∀ (s : SimState) (z : Cust) (zs : List Cust), s.queue = z :: zs →
        startServe s = { s with queue := zs, serving := some (z, s.now) }) := by
  refine ⟨fun _ _ _ _ hp => arriveStep_queue hp,
    fun _ _ _ _ hp => by rw [arriveStep_queue hp],
    fun _ _ _ _ hp hq => (arriveStep_requeue_mem hp hq).1,
    fun z zs hs x hx => custKeyLE_priority_entry (sortedQ_head_le hs x hx),
    fun s z zs hq => startServe_cons hq⟩

/-- C3 witness: an equal-priority arrival leaves the customer in service
untouched, and the head of a sorted two-customer queue of equal priority has
the earlier arrival time. -/
theorem C3_witness :
    (¬ (2 : ℕ) < 2) ∧
    (arriveStep ⟨3, 2, 1⟩ ⟨2, 0, 5⟩ 0
        { now := 3, queue := [], serving := some (⟨2, 0, 5⟩, 0), w := fun _ => 0,
          n := fun _ => 0, busy := 0, done := 0 }).serving =
      ({ now := 3, queue := [], serving := some (⟨2, 0, 5⟩, 0), w := fun _ => 0,
          n := fun _ => 0, busy := 0, done := 0 } : SimState).serving ∧
    (∀ x ∈ [(⟨1, 4, 2⟩ : Cust)], (1 : ℕ) < x.priority ∨
      ((1 : ℕ) = x.priority ∧ (3 : ℚ) ≤ x.entry)) :=
  ⟨by decide,
   C3_preemption_tiebreak.2.1 ⟨3, 2, 1⟩ ⟨2, 0, 5⟩ 0
     { now := 3, queue := [], serving := some (⟨2, 0, 5⟩, 0), w := fun _ => 0,
       n := fun _ => 0, busy := 0, done := 0 } (by decide),
   C3_preemption_tiebreak.2.2.2.1 ⟨1, 3, 5⟩ [⟨1, 4, 2⟩] (by decide)⟩

/- ===================== Claim C4 ===================== -/

/-- C4: along any horizon-h run from a well-formed configuration, in every
reachable state the server is idle only when the queue of waiting customers is
empty, and the accumulated busy time of the server never exceeds the horizon. -/
theorem C4_work_conservation (h tstart : ℚ) (c : SimConfig) (k : ℕ)
    (hwf : wfB h c = true) :
    ((run (some h) tstart k c).st.serving = none →
        (run (some h) tstart k c).st.queue = []) ∧
    (run (some h) tstart k c).st.busy ≤ h := by
  have hw := @wf_run h tstart k c hwf
  rw [wfB_iff] at hw
  obtain ⟨hbusy, hidle, -, -, -, -, hnh⟩ := hw
  constructor
  · exact fun hn => (hidle hn).1
  · cases hsv : (run (some h) tstart k c).st.serving with
    | none => exact (hidle hsv).2.trans hnh
    | some pr =>
      obtain ⟨cur, start⟩ := pr
      obtain ⟨hb, hst, -⟩ := hbusy cur start hsv
      linarith

/-- C4 witness: a well-formed fresh replicate with one pending arrival, run for
one dispatch with horizon 10, has an idle server only with an empty queue and
busy time at most the horizon. -/
theorem C4_witness :
    wfB 10 (initConfig [⟨1, 0, 2⟩]) = true ∧
    (((run (some 10) 5 1 (initConfig [⟨1, 0, 2⟩])).st.serving = none →
        (run (some 10) 5 1 (initConfig [⟨1, 0, 2⟩])).st.queue = []) ∧
      (run (some 10) 5 1 (initConfig [⟨1, 0, 2⟩])).st.busy ≤ 10) :=
  ⟨by decide, C4_work_conservation 10 5 (initConfig [⟨1, 0, 2⟩]) 1 (by decide)⟩

/- ===================== Claim C5 ===================== -/

/-- C5 counterexample: in the exceptional-service variant a customer preempted
during its setup phase is not requeued — interrupting the setup for customer
(priority 1, entry 0, service 5) with an empty queue leaves the queue empty, so
the job is discarded and never completes, refuting the claim that preemption is
always cancel-and-requeue in every variant. -/
theorem C5_counterexample :
    (exceptInterrupt true [] ⟨1, 0, 5⟩ 0 2).2 = [] := rfl

/-- C5 amended: in the preemptive-resume engine every job removed from service
before completion is requeued with its remaining duration, and with an
unbounded horizon every submitted job runs to completion (the run drains: all
arrivals dispatched, queue empty, server idle, completions equal submissions);
in the exceptional-service variant this holds only for preemptions outside the
setup phase — the handler requeues the remaining duration when the interrupt is
outside setup, and discards the customer when it lands in the setup phase. -/
theorem C5_no_abandonment (tstart : ℚ) (arrs : List Arrival) :
    (run none tstart (3 * arrs.length) (initConfig arrs)).st.done = arrs.length ∧
    (run none tstart (3 * arrs.length) (initConfig arrs)).arrs = [] ∧
    (run none tstart (3 * arrs.length) (initConfig arrs)).st.queue = [] ∧
    (run none tstart (3 * arrs.length) (initConfig arrs)).st.serving = none ∧
    (∀ (q : List Cust) (next : Cust) (start now : ℚ),
        exceptInterrupt false q next start now =
          (false, push q ⟨next.priority, next.entry, next.serv - (now - start)⟩)) := by
  have hhalt := @run_drain tstart (3 * arrs.length) (initConfig arrs)
    (by simp [sizeM, initConfig])
  obtain ⟨ha, hsv, hq⟩ := step_none_shape hhalt
  have hjobs := @jobs_run none tstart (3 * arrs.length) (initConfig arrs)
  refine ⟨?_, ha, hq, hsv, fun q next start now => rfl⟩
  have h1 : jobsTotal (initConfig arrs) = arrs.length := by
    simp [jobsTotal, initConfig]
  rw [h1] at hjobs
  simp [jobsTotal, ha, hsv, hq] at hjobs
  exact hjobs

/- ===================== Claim C9 ===================== -/

/-- C9: in the switchover engine the count of present primary users is
decremented only when a primary user completes service at an instant strictly
after the warm-up cutoff; while the run clock stays within the warm-up period
the count is nondecreasing, and once a primary user is present and the server
is not in a switchover, no dispatch within the warm-up period can initiate the
end-of-busy-period switchover. -/
theorem C9_warmup_switchover (tstart : ℚ) :
    (∀ c c', swStep tstart c = some c' →
        c'.st.PUcount < c.st.PUcount →
        ∃ cur start, c.st.phase = .busy cur start ∧ cur.priority = 0 ∧
          tstart < start + cur.serv ∧ c'.st.now = start + cur.serv ∧
          c'.st.PUcount = c.st.PUcount - 1) ∧
    (∀ c c', swStep tstart c = some c' → c'.st.now ≤ tstart →
        c.st.PUcount ≤ c'.st.PUcount) ∧
    (∀ (k : ℕ) (c : SwConfig),
        (∀ j, j ≤ k → (swRun tstart j c).st.now ≤ tstart) →
        1 ≤ c.st.PUcount → inSwitchover c.st.phase = false →
        1 ≤ (swRun tstart k c).st.PUcount ∧
          inSwitchover (swRun tstart k c).st.phase = false) :=
  ⟨fun _ _ hs hdec => swStep_PUcount_decrement hs hdec,
   fun _ _ hs hw => swStep_PUcount_mono hs hw,
   fun k _ hw hpu hns => swRun_warm k hw hpu hns⟩

/-- C9 witness: a warm-up configuration with one primary user present and one
pending primary-user arrival keeps a positive count and stays out of the
switchover across a dispatch inside the warm-up period. -/
theorem C9_witness :
    (∀ j, j ≤ 1 → (swRun (5 : ℚ) j
        ⟨[⟨1, 0, 2⟩], fun _ => 1, 0,
          { now := 0, queue := [], phase := .idle, total_w := fun _ => 0,
            n := fun _ => 0, PUcount := 1, PUperiod := true }⟩).st.now ≤ (5 : ℚ)) ∧
    (1 ≤ (swRun (5 : ℚ) 1
        ⟨[⟨1, 0, 2⟩], fun _ => 1, 0,
          { now := 0, queue := [], phase := .idle, total_w := fun _ => 0,
            n := fun _ => 0, PUcount := 1, PUperiod := true }⟩).st.PUcount ∧
      inSwitchover (swRun (5 : ℚ) 1
        ⟨[⟨1, 0, 2⟩], fun _ => 1, 0,
          { now := 0, queue := [], phase := .idle, total_w := fun _ => 0,
            n := fun _ => 0, PUcount := 1, PUperiod := true }⟩).st.phase = false) :=
  ⟨by decide,
   (C9_warmup_switchover 5).2.2 1
     ⟨[⟨1, 0, 2⟩], fun _ => 1, 0,
       { now := 0, queue := [], phase := .idle, total_w := fun _ => 0,
         n := fun _ => 0, PUcount := 1, PUperiod := true }⟩
     (by decide) (by decide) rfl⟩
